import Mathlib

/-!
Verification of `src/fastavro/bytes_speed_compare.pyx`, a Cython micro-benchmark
that counts occurrences of the byte `'l'` (108) in a byte buffer by four
different byte-fetching techniques.

Shallow embedding conventions:
* C byte buffers are `List Nat` (each entry a byte value).
* The C struct `ByteReader { const char* data; long pos; long length; }`
  becomes a Lean structure with the same three fields.
* A C memory access `data[i]` has a defined result only for `i` inside the
  buffer; the embedding renders it as `List.get?`, so an out-of-bounds access
  makes the enclosing operation fail (`Option.none`).  Pure pointer
  arithmetic (as in `read_bytes`, which performs no memory access itself)
  is embedded as the corresponding total update of `pos`.
* Python's `io.BytesIO` is embedded as a buffer plus a position whose
  `read n` returns up to `n` bytes and advances by the number returned.
-/

set_option autoImplicit false

namespace BytesSpeedCompare

/-- Embedding of the Cython struct `ByteReader` with fields
`data` (the buffer), `pos` (current offset) and `length` (the stored size). -/
structure ByteReader where
  data : List Nat
  pos : Nat
  length : Nat
  deriving DecidableEq

/-- Embedding of
`cdef inline char read_byte(ByteReader* br): c = br.data[br.pos]; br.pos += 1; return c`.
The memory access `br.data[br.pos]` is in bounds only for `pos < data.length`;
out of bounds it has no defined result, so the operation fails with `none`.
On success it returns the byte read together with the advanced reader. -/
def read_byte (br : ByteReader) : Option (Nat × ByteReader) :=
  (br.data.get? br.pos).map (fun c => (c, { br with pos := br.pos + 1 }))

/-- Embedding of
`cdef inline const char* read_bytes(ByteReader* br, long num): br.pos += num; return br.data + (br.pos - num)`.
The function performs no memory access: it unconditionally advances `pos` by
`num` and returns a view starting at the old position.  The view's bytes are
the (at most `num`) buffer bytes from the old position on. -/
def read_bytes (br : ByteReader) (num : Nat) : List Nat × ByteReader :=
  ((br.data.drop br.pos).take num, { br with pos := br.pos + num })

/-- Loop of `count_ls_cdef`: `for i in range(s_len): if s[i] == b'l': count += 1`,
starting at index `i`.  The access `s[i]` fails when out of bounds. -/
def count_ls_cdef_go (s : List Nat) (s_len i : Nat) : Option Nat :=
  if _h : i < s_len then
    match s.get? i with
    | some c => (count_ls_cdef_go s s_len (i + 1)).map
        (fun k => (if c = 108 then 1 else 0) + k)
    | none => none
  else
    some 0
termination_by s_len - i

/-- Embedding of `cdef int count_ls_cdef(const char* s, int s_len)`:
the raw indexed scan counting bytes equal to `b'l'` (108). -/
def count_ls_cdef (s : List Nat) (s_len : Nat) : Option Nat :=
  count_ls_cdef_go s s_len 0

/-- Embedding of `cdef int count_ls_bytereader(ByteReader br)`:
`while br.pos < br.length: if read_bytes(&br, 1)[0] == b'l': count += 1`.
The dereference `[0]` of the returned view fails when the view is empty. -/
def count_ls_bytereader (br : ByteReader) : Option Nat :=
  if _h : br.pos < br.length then
    match (read_bytes br 1).1.get? 0 with
    | some c => (count_ls_bytereader (read_bytes br 1).2).map
        (fun k => (if c = 108 then 1 else 0) + k)
    | none => none
  else
    some 0
termination_by br.length - br.pos
decreasing_by
  simp [read_bytes]
  omega

/-- Embedding of `cdef int count_ls_bytereader_single(ByteReader br)`:
`while br.pos < br.length: if read_byte(&br) == b'l': count += 1`. -/
def count_ls_bytereader_single (br : ByteReader) : Option Nat :=
  if _h : br.pos < br.length then
    match hr : read_byte br with
    | some cb => (count_ls_bytereader_single cb.2).map
        (fun k => (if cb.1 = 108 then 1 else 0) + k)
    | none => none
  else
    some 0
termination_by br.length - br.pos
decreasing_by
  simp only [read_byte, Option.map_eq_some'] at hr
  obtain ⟨c, _, hcb⟩ := hr
  subst hcb
  simp
  omega

/-- Embedding of Python's `io.BytesIO`: the buffer contents plus a position. -/
structure BytesIo where
  data : List Nat
  pos : Nat
  deriving DecidableEq

/-- Embedding of `BytesIO.read(n)`: returns up to `n` bytes from the current
position and advances the position by the number of bytes returned. -/
def BytesIo.read (fo : BytesIo) (n : Nat) : List Nat × BytesIo :=
  let c := (fo.data.drop fo.pos).take n
  (c, { fo with pos := fo.pos + c.length })

/-- Loop of `count_ls_bytesio`: `while c: if c[0] == b'l': count += 1; c = fo.read(1)`,
with `c` the chunk most recently read. -/
def count_ls_bytesio_go (c : List Nat) (fo : BytesIo) : Nat :=
  match c with
  | [] => 0
  | b :: _ =>
    (if b = 108 then 1 else 0) +
      count_ls_bytesio_go ((fo.read 1).1) ((fo.read 1).2)
termination_by (fo.data.length - fo.pos) + (if c = [] then 0 else 1)
decreasing_by
  simp only [BytesIo.read]
  by_cases hp : fo.pos < fo.data.length
  · have hne : (fo.data.drop fo.pos).take 1 ≠ [] := by
      have : fo.data.drop fo.pos ≠ [] := by
        simp [List.drop_eq_nil_iff]
        omega
      cases hd : fo.data.drop fo.pos with
      | nil => exact absurd hd this
      | cons a l => simp [hd]
    simp [hne]
    have : ((fo.data.drop fo.pos).take 1).length ≤ 1 := by
      simp [List.length_take]
    omega
  · have hnil : (fo.data.drop fo.pos).take 1 = [] := by
      have : fo.data.drop fo.pos = [] := by
        simp [List.drop_eq_nil_iff]
        omega
      simp [this]
    simp [hnil]

/-- Embedding of `cdef int count_ls_bytesio(fo)`:
`c = fo.read(1); count = 0; while c: ...; return count`. -/
def count_ls_bytesio (fo : BytesIo) : Nat :=
  count_ls_bytesio_go ((fo.read 1).1) ((fo.read 1).2)

/-- Embedding of `def py_count_ls_cdef(s): return count_ls_cdef(s, len(s))`. -/
def py_count_ls_cdef (s : List Nat) : Option Nat :=
  count_ls_cdef s s.length

/-- Embedding of
`def py_count_ls_bytereader(s): return count_ls_bytereader(ByteReader(s, 0, len(s)))`. -/
def py_count_ls_bytereader (s : List Nat) : Option Nat :=
  count_ls_bytereader (ByteReader.mk s 0 s.length)

/-- Embedding of `def py_count_ls_bytereader_single(s)`. -/
def py_count_ls_bytereader_single (s : List Nat) : Option Nat :=
  count_ls_bytereader_single (ByteReader.mk s 0 s.length)

/-- Embedding of `def py_count_ls_bytesio(s): return count_ls_bytesio(io.BytesIO(s))`. -/
def py_count_ls_bytesio (s : List Nat) : Nat :=
  count_ls_bytesio (BytesIo.mk s 0)

/-- Modelled from the spec: the ByteCursor operation
`count_matches(cursor, target)`, absent from the source, which has only the
`target = b'l'` instances (`count_ls_bytereader_single` and friends).  Per
the spec it repeatedly calls `read_byte` until exhaustion, counting bytes
equal to `target`, and returns the count with the final cursor.  A failing
`read_byte` (out-of-bounds access, possible only for a malformed cursor)
propagates as `none`. -/
def count_matches (br : ByteReader) (target : Nat) : Option (Nat × ByteReader) :=
  if _h : br.pos < br.length then
    match hr : read_byte br with
    | some cb => (count_matches cb.2 target).map
        (fun kb => ((if cb.1 = target then 1 else 0) + kb.1, kb.2))
    | none => none
  else
    some (0, br)
termination_by br.length - br.pos
decreasing_by
  simp only [read_byte, Option.map_eq_some'] at hr
  obtain ⟨c, _, hcb⟩ := hr
  subst hcb
  simp
  omega

/-- Driver used to state the round-trip property: repeatedly call `read_byte`
until it fails, collecting the bytes in order, and return them with the final
reader. -/
def read_all (br : ByteReader) : List Nat × ByteReader :=
  match hr : read_byte br with
  | some cb =>
    let r := read_all cb.2
    (cb.1 :: r.1, r.2)
  | none => ([], br)
termination_by br.data.length - br.pos
decreasing_by
  simp only [read_byte, Option.map_eq_some'] at hr
  obtain ⟨c, hc, hcb⟩ := hr
  subst hcb
  have : br.pos < br.data.length := by
    by_contra hge
    rw [List.get?_eq_none.mpr (by omega)] at hc
    exact Option.noConfusion hc
  simp
  omega

/-- Cursor operations named in the invariant claim: a single-byte read, a
slice read of `n` bytes, and a full counting scan for target `t`. -/
inductive Op where
  | rbyte : Op
  | rslice : Nat → Op
  | cmatches : Nat → Op
  deriving DecidableEq

/-- State transition of a cursor under one operation.  A failing operation
produces no new cursor, so the caller retains the cursor unchanged. -/
def step (br : ByteReader) : Op → ByteReader
  | Op.rbyte =>
    match read_byte br with
    | some cb => cb.2
    | none => br
  | Op.rslice n => (read_bytes br n).2
  | Op.cmatches t =>
    match count_matches br t with
    | some kb => kb.2
    | none => br

/-- Run a sequence of cursor operations from a starting cursor. -/
def runOps (br : ByteReader) (ops : List Op) : ByteReader :=
  ops.foldl step br

/-- Bounds discipline for a single operation: a slice read must request at
most the bytes remaining; the other operations are unrestricted. -/
def okStep (br : ByteReader) : Op → Bool
  | Op.rslice n => decide (br.pos + n ≤ br.length)
  | _ => true

/-- Bounds discipline on a sequence of operations: every slice read requests
at most the bytes remaining at the point where it executes. -/
def okOps (br : ByteReader) : List Op → Bool
  | [] => true
  | op :: rest => okStep br op && okOps (step br op) rest

theorem read_byte_none_iff (br : ByteReader) :
    read_byte br = none ↔ br.data.length ≤ br.pos := by
  simp [read_byte, List.get?_eq_none]

theorem read_byte_some_inv {br : ByteReader} {cb : Nat × ByteReader}
    (h : read_byte br = some cb) :
    br.data.get? br.pos = some cb.1 ∧ cb.2 = { br with pos := br.pos + 1 } := by
  simp only [read_byte, Option.map_eq_some'] at h
  obtain ⟨c, hc, hcb⟩ := h
  subst hcb
  exact ⟨hc, rfl⟩

theorem get?_some_lt {d : List Nat} {p c : Nat} (hc : d.get? p = some c) :
    p < d.length := by
  by_contra hge
  rw [List.get?_eq_none.mpr (by omega)] at hc
  exact Option.noConfusion hc

theorem drop_count_succ (d : List Nat) (p t : Nat) {c : Nat}
    (hc : d.get? p = some c) :
    (d.drop p).count t = (if c = t then 1 else 0) + (d.drop (p + 1)).count t := by
  have hlt : p < d.length := get?_some_lt hc
  have hget : d.get ⟨p, hlt⟩ = c := by
    rw [List.get?_eq_get hlt] at hc
    exact Option.some.inj hc
  rw [List.drop_eq_get_cons hlt, hget, List.count_cons]
  by_cases h : c = t <;> simp [h] <;> omega

theorem count_single_eq (br : ByteReader) :
    br.length = br.data.length →
    count_ls_bytereader_single br = some ((br.data.drop br.pos).count 108) := by
  induction br using count_ls_bytereader_single.induct with
  | case1 br h cb hr ih =>
    intro hw
    obtain ⟨hc, hcb⟩ := read_byte_some_inv hr
    rw [count_ls_bytereader_single, dif_pos h]
    split
    · next cb2 heq =>
      rw [hr] at heq
      have hcb2 : cb2 = cb := (Option.some.inj heq).symm
      subst hcb2
      rw [ih (by rw [hcb]; exact hw), Option.map_some', hcb,
        drop_count_succ br.data br.pos 108 hc]
    · next heq =>
      rw [hr] at heq
      exact absurd heq (by simp)
  | case2 br h hr =>
    intro hw
    have := (read_byte_none_iff br).mp hr
    omega
  | case3 br h =>
    intro hw
    rw [count_ls_bytereader_single, dif_neg h]
    have hnil : br.data.drop br.pos = [] := by
      rw [List.drop_eq_nil_iff]
      omega
    rw [hnil, List.count_nil]


theorem count_reader_eq (br : ByteReader) :
    br.length = br.data.length →
    count_ls_bytereader br = some ((br.data.drop br.pos).count 108) := by
  induction br using count_ls_bytereader.induct with
  | case1 br h c hc ih =>
    intro hw
    have hc' : br.data.get? br.pos = some c := by
      have h01 : (0:Nat) < 1 := by omega
      rw [show (read_bytes br 1).1 = (br.data.drop br.pos).take 1 from rfl,
        List.get?_take h01, List.get?_drop] at hc
      simpa using hc
    rw [count_ls_bytereader, dif_pos h]
    split
    · next c2 heq =>
      rw [hc] at heq
      have hc2 : c2 = c := (Option.some.inj heq).symm
      subst hc2
      rw [ih (by simp [read_bytes, hw]), Option.map_some']
      rw [show (read_bytes br 1).2 = { br with pos := br.pos + 1 } from rfl]
      rw [drop_count_succ br.data br.pos 108 hc']
    · next heq =>
      rw [hc] at heq
      exact absurd heq (by simp)
  | case2 br h hc =>
    intro hw
    rw [show (read_bytes br 1).1 = (br.data.drop br.pos).take 1 from rfl,
      List.get?_eq_none] at hc
    simp [List.length_take, List.length_drop] at hc
    omega
  | case3 br h =>
    intro hw
    rw [count_ls_bytereader, dif_neg h]
    have hnil : br.data.drop br.pos = [] := by
      rw [List.drop_eq_nil_iff]
      omega
    rw [hnil, List.count_nil]

theorem count_matches_eq (br : ByteReader) (t : Nat) :
    br.length = br.data.length →
    count_matches br t =
      some ((br.data.drop br.pos).count t, { br with pos := max br.pos br.length }) := by
  induction br, t using count_matches.induct with
  | case1 br t h cb hr ih =>
    intro hw
    obtain ⟨hc, hcb⟩ := read_byte_some_inv hr
    rw [count_matches, dif_pos h]
    split
    · next cb2 heq =>
      rw [hr] at heq
      have hcb2 : cb2 = cb := (Option.some.inj heq).symm
      subst hcb2
      rw [ih (by rw [hcb]; exact hw), Option.map_some', hcb]
      dsimp only
      have h1 : max (br.pos + 1) br.length = br.length := by omega
      have h2 : max br.pos br.length = br.length := by omega
      rw [h1, h2, drop_count_succ br.data br.pos t hc]
    · next heq =>
      rw [hr] at heq
      exact absurd heq (by simp)
  | case2 br t h hr =>
    intro hw
    have := (read_byte_none_iff br).mp hr
    omega
  | case3 br t h =>
    intro hw
    rw [count_matches, dif_neg h]
    have hnil : br.data.drop br.pos = [] := by
      rw [List.drop_eq_nil_iff]
      omega
    rw [hnil, List.count_nil]
    have hmax : max br.pos br.length = br.pos := by omega
    rw [hmax]

theorem read_all_eq (br : ByteReader) :
    read_all br = (br.data.drop br.pos, { br with pos := max br.pos br.data.length }) := by
  induction br using read_all.induct with
  | case1 br cb hr ih =>
    obtain ⟨hc, hcb⟩ := read_byte_some_inv hr
    have hlt : br.pos < br.data.length := get?_some_lt hc
    have hget : br.data.get ⟨br.pos, hlt⟩ = cb.1 := by
      rw [List.get?_eq_get hlt] at hc
      exact Option.some.inj hc
    rw [read_all]
    split
    · next cb2 heq =>
      rw [hr] at heq
      have hcb2 : cb2 = cb := (Option.some.inj heq).symm
      subst hcb2
      show (cb2.1 :: (read_all cb2.2).1, (read_all cb2.2).2) = _
      rw [ih, hcb]
      dsimp only
      have h1 : max (br.pos + 1) br.data.length = br.data.length := by omega
      have h2 : max br.pos br.data.length = br.data.length := by omega
      rw [h1, h2, List.drop_eq_get_cons hlt, hget]
    · next heq =>
      rw [hr] at heq
      exact absurd heq (by simp)
  | case2 br hr =>
    have hge := (read_byte_none_iff br).mp hr
    rw [read_all]
    split
    · next cb2 heq =>
      rw [hr] at heq
      exact absurd heq (by simp)
    · next heq =>
      have hnil : br.data.drop br.pos = [] := by
        rw [List.drop_eq_nil_iff]
        omega
      rw [hnil]
      have hmax : max br.pos br.data.length = br.pos := by omega
      rw [hmax]

theorem count_ls_cdef_go_eq (s : List Nat) (i : Nat) :
    count_ls_cdef_go s s.length i = some ((s.drop i).count 108) := by
  induction i using count_ls_cdef_go.induct s s.length with
  | case1 i hi c hc ih =>
    rw [count_ls_cdef_go, dif_pos hi]
    split
    · next c2 heq =>
      rw [hc] at heq
      have hc2 : c2 = c := (Option.some.inj heq).symm
      subst hc2
      rw [ih, Option.map_some', drop_count_succ s i 108 hc]
    · next heq =>
      rw [hc] at heq
      exact absurd heq (by simp)
  | case2 i hi hc =>
    have := List.get?_eq_none.mp hc
    omega
  | case3 i hi =>
    rw [count_ls_cdef_go, dif_neg hi]
    have hnil : s.drop i = [] := by
      rw [List.drop_eq_nil_iff]
      omega
    rw [hnil, List.count_nil]



theorem count_ls_bytesio_go_nil (fo : BytesIo) : count_ls_bytesio_go [] fo = 0 := by
  rw [count_ls_bytesio_go]

theorem count_ls_bytesio_go_cons (b : Nat) (rest : List Nat) (fo : BytesIo) :
    count_ls_bytesio_go (b :: rest) fo =
      (if b = 108 then 1 else 0) +
        count_ls_bytesio_go ((fo.read 1).1) ((fo.read 1).2) := by
  rw [count_ls_bytesio_go]

theorem count_ls_bytesio_eq (fo : BytesIo) :
    count_ls_bytesio fo = (fo.data.drop fo.pos).count 108 := by
  rw [count_ls_bytesio]
  by_cases hp : fo.pos < fo.data.length
  · have hd : fo.data.drop fo.pos =
        fo.data.get ⟨fo.pos, hp⟩ :: fo.data.drop (fo.pos + 1) :=
      List.drop_eq_get_cons hp
    have h1 : (fo.read 1).1 = [fo.data.get ⟨fo.pos, hp⟩] := by
      show (fo.data.drop fo.pos).take 1 = _
      rw [hd]
      simp only [List.take_succ_cons, List.take_zero]
    have h2 : (fo.read 1).2 = { fo with pos := fo.pos + 1 } := by
      show { fo with pos := fo.pos + ((fo.data.drop fo.pos).take 1).length } = _
      rw [hd]
      simp only [List.take_succ_cons, List.take_zero, List.length_cons,
        List.length_nil]
    rw [h1, h2, count_ls_bytesio_go_cons, ← count_ls_bytesio,
      count_ls_bytesio_eq { fo with pos := fo.pos + 1 }]
    rw [hd, List.count_cons]
    simp only [beq_iff_eq]
    exact Nat.add_comm _ _
  · have hnil : fo.data.drop fo.pos = [] := by
      rw [List.drop_eq_nil_iff]
      omega
    have h1 : (fo.read 1).1 = [] := by
      show (fo.data.drop fo.pos).take 1 = _
      rw [hnil]
      simp only [List.take_nil]
    rw [h1, count_ls_bytesio_go_nil, hnil, List.count_nil]
termination_by fo.data.length - fo.pos

theorem filter_range'_count (d : List Nat) (t : Nat) :
    ∀ (k p : Nat), p + k ≤ d.length →
      ((List.range' p k).filter (fun i => decide (d.get? i = some t))).length =
        ((d.drop p).take k).count t := by
  intro k
  induction k with
  | zero =>
    intro p hp
    simp
  | succ k ih =>
    intro p hp
    have hlt : p < d.length := by omega
    have hg : d.get? p = some (d.get ⟨p, hlt⟩) := List.get?_eq_get hlt
    rw [List.range'_succ, List.filter_cons]
    by_cases hb : d.get ⟨p, hlt⟩ = t
    · have hpa : decide (d.get? p = some t) = true := by
        simp only [decide_eq_true_eq]
        rw [hg, hb]
      rw [if_pos hpa, List.length_cons,
        List.drop_eq_get_cons hlt, List.take_succ_cons, List.count_cons,
        ih (p + 1) (by omega)]
      simp only [beq_iff_eq]
      rw [if_pos hb]
    · have hpa : ¬ decide (d.get? p = some t) = true := by
        simp only [decide_eq_true_eq]
        rw [hg]
        intro hcon
        exact hb (Option.some.inj hcon)
      rw [if_neg hpa,
        List.drop_eq_get_cons hlt, List.take_succ_cons, List.count_cons,
        ih (p + 1) (by omega)]
      simp only [beq_iff_eq]
      rw [if_neg hb]
      omega



theorem filter_range_count (d : List Nat) (t p : Nat) :
    ((List.range d.length).filter
        (fun i => decide (p ≤ i ∧ d.get? i = some t))).length =
      (d.drop p).count t := by
  by_cases hp : p ≤ d.length
  · rw [List.range_eq_range']
    have hsplit : List.range' 0 d.length =
        List.range' 0 p ++ List.range' p (d.length - p) := by
      have h := List.range'_append 0 p (d.length - p) 1
      simp only [Nat.one_mul, Nat.zero_add] at h
      rw [show d.length - p + p = d.length from by omega] at h
      exact h.symm
    rw [hsplit, List.filter_append, List.length_append]
    have h1 : (List.range' 0 p).filter
        (fun i => decide (p ≤ i ∧ d.get? i = some t)) = [] := by
      rw [List.filter_eq_nil]
      intro a ha
      have hm := List.mem_range'_1.mp ha
      simp only [decide_eq_true_eq]
      rintro ⟨hpa, -⟩
      omega
    have h2 : (List.range' p (d.length - p)).filter
          (fun i => decide (p ≤ i ∧ d.get? i = some t)) =
        (List.range' p (d.length - p)).filter
          (fun i => decide (d.get? i = some t)) := by
      apply List.filter_congr
      intro x hx
      have hm := List.mem_range'_1.mp hx
      simp only [decide_eq_decide]
      constructor
      · rintro ⟨-, hq⟩
        exact hq
      · intro hq
        exact ⟨hm.1, hq⟩
    rw [h1, h2, List.length_nil, Nat.zero_add,
      filter_range'_count d t (d.length - p) p (by omega)]
    rw [List.take_of_length_le (by rw [List.length_drop])]
  · have h1 : (List.range d.length).filter
        (fun i => decide (p ≤ i ∧ d.get? i = some t)) = [] := by
      rw [List.filter_eq_nil]
      intro a ha
      have hm := List.mem_range.mp ha
      simp only [decide_eq_true_eq]
      rintro ⟨hpa, -⟩
      omega
    have h2 : d.drop p = [] := by
      rw [List.drop_eq_nil_iff]
      omega
    rw [h1, h2, List.length_nil, List.count_nil]

theorem step_data_length (br : ByteReader) (op : Op)
    (hw : br.length = br.data.length) :
    (step br op).data = br.data ∧ (step br op).length = br.length := by
  cases op with
  | rbyte =>
    rw [step]
    split
    · next cb heq =>
      obtain ⟨-, hcb⟩ := read_byte_some_inv heq
      rw [hcb]
      exact ⟨rfl, rfl⟩
    · next heq =>
      exact ⟨rfl, rfl⟩
  | rslice n =>
    rw [step]
    exact ⟨rfl, rfl⟩
  | cmatches t =>
    rw [step]
    split
    · next kb heq =>
      rw [count_matches_eq br t hw] at heq
      have := Option.some.inj heq
      rw [← this]
      exact ⟨rfl, rfl⟩
    · next heq =>
      exact ⟨rfl, rfl⟩

theorem step_pos_le (br : ByteReader) (op : Op)
    (hw : br.length = br.data.length) (hp : br.pos ≤ br.length)
    (hok : okStep br op = true) :
    (step br op).pos ≤ (step br op).length := by
  cases op with
  | rbyte =>
    rw [step]
    split
    · next cb heq =>
      obtain ⟨hc, hcb⟩ := read_byte_some_inv heq
      have hlt : br.pos < br.data.length := get?_some_lt hc
      rw [hcb]
      show br.pos + 1 ≤ br.length
      omega
    · next heq =>
      exact hp
  | rslice n =>
    rw [step]
    show br.pos + n ≤ br.length
    rw [okStep, decide_eq_true_eq] at hok
    exact hok
  | cmatches t =>
    rw [step]
    split
    · next kb heq =>
      rw [count_matches_eq br t hw] at heq
      have := Option.some.inj heq
      rw [← this]
      show max br.pos br.length ≤ br.length
      omega
    · next heq =>
      exact hp



/-- C1 (confirmed): for every cursor whose `length` field equals the size of
its buffer and every byte value `t`, `count_matches` returns exactly the
number of positions `i` in `[position, length)` at which `buffer[i] = t`. -/
theorem count_matches_counts_positions (br : ByteReader) (t : Nat)
    (hw : br.length = br.data.length) :
    (count_matches br t).map Prod.fst =
      some (((List.range br.length).filter
        (fun i => decide (br.pos ≤ i ∧ br.data.get? i = some t))).length) := by
  rw [count_matches_eq br t hw, Option.map_some', hw,
    filter_range_count br.data t br.pos]

/-- Witness for C1 at a concrete cursor: buffer `[108, 50, 108]`, position 1,
target 108; one matching position remains. -/
theorem count_matches_counts_positions_witness :
    (count_matches (ByteReader.mk [108, 50, 108] 1 3) 108).map Prod.fst =
      some (((List.range 3).filter
        (fun i => decide (1 ≤ i ∧ ([108, 50, 108] : List Nat).get? i = some 108))).length) :=
  count_matches_counts_positions (ByteReader.mk [108, 50, 108] 1 3) 108 rfl

/-- C2 (confirmed): `read_byte` fails exactly when `position >= length` (for a
cursor whose `length` equals the buffer size); from a fresh cursor over `b`
the i-th call succeeds for every `i < size b`, yields the byte at the current
position while advancing the position by one, and the call at `i = size b`
fails. -/
theorem read_byte_exhausts (b : List Nat) :
    (∀ br : ByteReader, br.data = b → br.length = b.length →
        (read_byte br = none ↔ br.length ≤ br.pos)) ∧
    (∀ (i : Nat) (h : i < b.length),
        read_byte (ByteReader.mk b i b.length) =
          some (b.get ⟨i, h⟩, ByteReader.mk b (i + 1) b.length)) ∧
    read_byte (ByteReader.mk b b.length b.length) = none := by
  refine ⟨?_, ?_, ?_⟩
  · intro br hd hl
    rw [read_byte_none_iff, hd, hl]
  · intro i h
    simp [read_byte, List.get?_eq_get h]
  · rw [read_byte_none_iff]

/-- Witness for C2: the two bytes of `[7, 9]` are read in order and the third
call fails. -/
theorem read_byte_exhausts_witness :
    read_byte (ByteReader.mk [7, 9] 0 2) = some (7, ByteReader.mk [7, 9] 1 2) ∧
    read_byte (ByteReader.mk [7, 9] 1 2) = some (9, ByteReader.mk [7, 9] 2 2) ∧
    read_byte (ByteReader.mk [7, 9] 2 2) = none :=
  ⟨(read_byte_exhausts [7, 9]).2.1 0 (by decide),
   (read_byte_exhausts [7, 9]).2.1 1 (by decide),
   (read_byte_exhausts [7, 9]).2.2⟩

/-- C3 counterexample: starting from the well-formed empty cursor, a single
`read_slice 1` drives `position` to 1 while `length` is 0 -- the source's
`read_bytes` advances `pos` without any bounds check, so the claimed
invariant fails after that operation. -/
theorem cursor_invariant_cex :
    ¬ ((runOps (ByteReader.mk [] 0 0) [Op.rslice 1]).pos ≤
        (runOps (ByteReader.mk [] 0 0) [Op.rslice 1]).length) := by
  decide

/-- C3 (corrected): `0 <= position <= length` holds after each operation of
any sequence of `read_byte` / `read_slice` / `count_matches` steps, for a
well-formed cursor, provided every `read_slice` requests at most the bytes
remaining when it executes; an unguarded `read_slice` can push `position`
past `length`. -/
theorem cursor_invariant_guarded (ops : List Op) (br : ByteReader)
    (hw : br.length = br.data.length) (hp : br.pos ≤ br.length)
    (hok : okOps br ops = true) (k : Nat) :
    (runOps br (ops.take k)).pos ≤ (runOps br (ops.take k)).length := by
  induction ops generalizing br k with
  | nil =>
    rw [List.take_nil]
    exact hp
  | cons op rest ih =>
    cases k with
    | zero =>
      rw [List.take_zero]
      exact hp
    | succ k =>
      rw [List.take_succ_cons]
      rw [okOps, Bool.and_eq_true] at hok
      have hd := step_data_length br op hw
      show (runOps (step br op) (rest.take k)).pos ≤ _
      exact ih (step br op) (by rw [hd.2, hd.1, hw])
        (step_pos_le br op hw hp hok.1) hok.2 k

/-- Witness for C3 (corrected) on a concrete in-bounds operation sequence. -/
theorem cursor_invariant_guarded_witness :
    (runOps (ByteReader.mk [108, 5] 0 2) ([Op.rbyte, Op.rslice 1].take 2)).pos ≤
      (runOps (ByteReader.mk [108, 5] 0 2) ([Op.rbyte, Op.rslice 1].take 2)).length :=
  cursor_invariant_guarded [Op.rbyte, Op.rslice 1] (ByteReader.mk [108, 5] 0 2)
    rfl (by decide) (by decide) 2

/-- C4 (confirmed): the four counting variants return the same count on every
input buffer, namely the number of occurrences of byte 108 (`b'l'`). -/
theorem four_variants_agree (s : List Nat) :
    py_count_ls_cdef s = some (s.count 108) ∧
    py_count_ls_bytereader s = some (s.count 108) ∧
    py_count_ls_bytereader_single s = some (s.count 108) ∧
    py_count_ls_bytesio s = s.count 108 := by
  refine ⟨?_, ?_, ?_, ?_⟩
  · rw [py_count_ls_cdef, count_ls_cdef, count_ls_cdef_go_eq s 0, List.drop_zero]
  · rw [py_count_ls_bytereader, count_reader_eq _ rfl]
    show some ((s.drop 0).count 108) = _
    rw [List.drop_zero]
  · rw [py_count_ls_bytereader_single, count_single_eq _ rfl]
    show some ((s.drop 0).count 108) = _
    rw [List.drop_zero]
  · rw [py_count_ls_bytesio, count_ls_bytesio_eq]
    show (s.drop 0).count 108 = _
    rw [List.drop_zero]

/-- C5 (confirmed): with `position + n <= length` on a well-formed cursor,
`read_slice` returns the `n`-byte view of `[position, position+n)` and
advances `position` by exactly `n`; for `n = 0` it returns the empty view
without advancing. -/
theorem read_slice_spec (br : ByteReader) (n : Nat)
    (hw : br.length = br.data.length) (hn : br.pos + n ≤ br.length) :
    (read_bytes br n).1.length = n ∧
    (∀ j, j < n → (read_bytes br n).1.get? j = br.data.get? (br.pos + j)) ∧
    (read_bytes br n).2 = { br with pos := br.pos + n } ∧
    (n = 0 → (read_bytes br n).1 = [] ∧ (read_bytes br n).2 = br) := by
  refine ⟨?_, ?_, rfl, ?_⟩
  · show ((br.data.drop br.pos).take n).length = n
    rw [List.length_take, List.length_drop]
    omega
  · intro j hj
    show ((br.data.drop br.pos).take n).get? j = _
    rw [List.get?_take hj, List.get?_drop]
  · intro h0
    subst h0
    exact ⟨rfl, rfl⟩

/-- Witness for C5: slicing 2 bytes at position 1 of `[1, 2, 3]`. -/
theorem read_slice_spec_witness :
    (read_bytes (ByteReader.mk [1, 2, 3] 1 3) 2).1.length = 2 ∧
    (read_bytes (ByteReader.mk [1, 2, 3] 1 3) 2).1.get? 1 =
      ([1, 2, 3] : List Nat).get? 2 ∧
    (read_bytes (ByteReader.mk [1, 2, 3] 1 3) 2).2 = ByteReader.mk [1, 2, 3] 3 3 :=
  ⟨(read_slice_spec (ByteReader.mk [1, 2, 3] 1 3) 2 rfl (by decide)).1,
   (read_slice_spec (ByteReader.mk [1, 2, 3] 1 3) 2 rfl (by decide)).2.1 1 (by decide),
   (read_slice_spec (ByteReader.mk [1, 2, 3] 1 3) 2 rfl (by decide)).2.2.1⟩

/-- C6 counterexample: requesting 5 bytes from an empty cursor -- more than
remain -- does not leave `position` unchanged: the source's `read_bytes`
advances it unconditionally. -/
theorem no_partial_advance_cex :
    (read_bytes (ByteReader.mk [] 0 0) 5).2.pos ≠ (ByteReader.mk [] 0 0).pos := by
  decide

/-- C6 (corrected): `read_byte`, the only read that can fail, fails exactly on
an exhausted buffer and then yields no new cursor -- the caller's cursor is
unchanged and remains usable; `read_slice` never rejects a request: it
always advances `position` by `n`, even when fewer than `n` bytes remain,
while leaving the buffer and `length` untouched. -/
theorem failed_read_leaves_cursor (br : ByteReader) (n : Nat) :
    (read_byte br = none ↔ br.data.length ≤ br.pos) ∧
    (read_byte br = none → step br Op.rbyte = br) ∧
    (read_bytes br n).2.pos = br.pos + n ∧
    (read_bytes br n).2.data = br.data ∧
    (read_bytes br n).2.length = br.length := by
  refine ⟨read_byte_none_iff br, ?_, rfl, rfl, rfl⟩
  intro hn
  rw [step]
  split
  · next cb heq =>
    rw [hn] at heq
    exact absurd heq (by simp)
  · next heq =>
    rfl

/-- Witness for C6 (corrected): a failed `read_byte` on the empty cursor
leaves it unchanged, and an oversized `read_slice` advances by its request. -/
theorem failed_read_leaves_cursor_witness :
    step (ByteReader.mk [] 0 0) Op.rbyte = ByteReader.mk [] 0 0 ∧
    (read_bytes (ByteReader.mk [] 0 0) 5).2.pos = 0 + 5 :=
  ⟨(failed_read_leaves_cursor (ByteReader.mk [] 0 0) 5).2.1 (by decide),
   (failed_read_leaves_cursor (ByteReader.mk [] 0 0) 5).2.2.1⟩

/-- C7 (confirmed): on a well-formed cursor (`position <= length`, `length`
the buffer size) `count_matches` terminates with a result -- it never fails --
and leaves `position = length`. -/
theorem count_matches_terminates (br : ByteReader) (t : Nat)
    (hp : br.pos ≤ br.length) (hw : br.length = br.data.length) :
    ∃ k, count_matches br t = some (k, { br with pos := br.length }) := by
  refine ⟨(br.data.drop br.pos).count t, ?_⟩
  rw [count_matches_eq br t hw]
  have hmax : max br.pos br.length = br.length := by omega
  rw [hmax]

/-- Witness for C7 on a concrete cursor. -/
theorem count_matches_terminates_witness :
    ∃ k, count_matches (ByteReader.mk [108, 7] 0 2) 108 =
      some (k, ByteReader.mk [108, 7] 2 2) :=
  count_matches_terminates (ByteReader.mk [108, 7] 0 2) 108 (by decide) rfl

/-- C8 (confirmed): concatenating the bytes returned by successive `read_byte`
calls over a full pass from a fresh cursor reconstructs the buffer exactly. -/
theorem read_byte_roundtrip (b : List Nat) :
    (read_all (ByteReader.mk b 0 b.length)).1 = b := by
  rw [read_all_eq]
  show b.drop 0 = b
  rw [List.drop_zero]

/-- C9 (confirmed): the public counting entry points are deterministic --
equal input byte sequences give equal counts -- and no operation mutates the
underlying buffer: every primitive read returns a state with the same
`data`. -/
theorem entry_points_pure :
    (∀ s t : List Nat, s = t →
        py_count_ls_cdef s = py_count_ls_cdef t ∧
        py_count_ls_bytereader s = py_count_ls_bytereader t ∧
        py_count_ls_bytereader_single s = py_count_ls_bytereader_single t ∧
        py_count_ls_bytesio s = py_count_ls_bytesio t) ∧
    (∀ (br : ByteReader) (cb : Nat × ByteReader),
        read_byte br = some cb → cb.2.data = br.data) ∧
    (∀ (br : ByteReader) (n : Nat), (read_bytes br n).2.data = br.data) ∧
    (∀ (fo : BytesIo) (n : Nat), (fo.read n).2.data = fo.data) := by
  refine ⟨?_, ?_, ?_, ?_⟩
  · intro s t hst
    subst hst
    exact ⟨rfl, rfl, rfl, rfl⟩
  · intro br cb hcb
    rw [(read_byte_some_inv hcb).2]
  · intro br n
    rfl
  · intro fo n
    rfl

/-- Witness for C9 at concrete inputs. -/
theorem entry_points_pure_witness :
    py_count_ls_cdef [108] = py_count_ls_cdef [108] ∧
    (ByteReader.mk [108] 1 1).data = (ByteReader.mk [108] 0 1).data :=
  ⟨(entry_points_pure.1 [108] [108] rfl).1,
   entry_points_pure.2.1 (ByteReader.mk [108] 0 1)
     (108, ByteReader.mk [108] 1 1) (by decide)⟩

/-- C10 (confirmed): each public counting entry point returns a count between
0 and the input length. -/
theorem counts_bounded (s : List Nat) :
    ∃ k, py_count_ls_cdef s = some k ∧
      py_count_ls_bytereader s = some k ∧
      py_count_ls_bytereader_single s = some k ∧
      py_count_ls_bytesio s = k ∧ k ≤ s.length := by
  refine ⟨s.count 108, ?_, ?_, ?_, ?_, List.count_le_length 108 s⟩
  · rw [py_count_ls_cdef, count_ls_cdef, count_ls_cdef_go_eq s 0, List.drop_zero]
  · rw [py_count_ls_bytereader, count_reader_eq _ rfl]
    show some ((s.drop 0).count 108) = _
    rw [List.drop_zero]
  · rw [py_count_ls_bytereader_single, count_single_eq _ rfl]
    show some ((s.drop 0).count 108) = _
    rw [List.drop_zero]
  · rw [py_count_ls_bytesio, count_ls_bytesio_eq]
    show (s.drop 0).count 108 = _
    rw [List.drop_zero]


end BytesSpeedCompare
